import Mathlib

/-!
# Verification of the SOMA virtual machine core (soma/vm.py)

A shallow embedding of the SOMA VM's Cell-graph storage (`Store`), the
per-block `Register`, and the RunNode execution semantics, translated from
`src/soma/vm.py`.  Python's mutable object graph is modelled as a heap:
every `Cell` lives at a `Nat` address, and a `dict[str, Cell]` becomes a
function `String → Option Nat` returning addresses.  Python exceptions
become `Option`/error results; the recursive interpreter is indexed by
fuel (running out of fuel is a distinct outcome, never identified with a
program error).
-/

namespace Soma

/-- AST node shapes consumed by the VM (soma/parser.py).  A `StoreNode`'s
target is always a `ValuePath` or `ReferencePath`; the compiler only uses
the `is_ref` flag and the components, which is what we record. -/
inductive Node where
  | intN (value : Int)
  | strN (value : String)
  | blkN (body : List Node)
  | valPath (components : List String)
  | refPath (components : List String)
  | execN (target : Node)
  | storeN (isRef : Bool) (components : List String)

mutual

/-- Structural equality test for AST nodes (deriving cannot handle the
nested `List Node`, so it is written out). -/
def Node.beq : Node → Node → Bool
  | .intN x, .intN y => x == y
  | .strN x, .strN y => x == y
  | .blkN xs, .blkN ys => Node.beqList xs ys
  | .valPath x, .valPath y => x == y
  | .refPath x, .refPath y => x == y
  | .execN x, .execN y => Node.beq x y
  | .storeN r1 c1, .storeN r2 c2 => r1 == r2 && c1 == c2
  | _, _ => false

/-- Structural equality test for node lists. -/
def Node.beqList : List Node → List Node → Bool
  | [], [] => true
  | x :: xs, y :: ys => Node.beq x y && Node.beqList xs ys
  | _, _ => false

end

mutual

theorem Node.beq_iff : ∀ a b : Node, Node.beq a b = true ↔ a = b
  | .intN x, b => by cases b <;> simp [Node.beq]
  | .strN x, b => by cases b <;> simp [Node.beq]
  | .blkN xs, b => by
      cases b <;> simp [Node.beq]
      exact Node.beqList_iff xs _
  | .valPath x, b => by cases b <;> simp [Node.beq]
  | .refPath x, b => by cases b <;> simp [Node.beq]
  | .execN x, b => by
      cases b <;> simp [Node.beq]
      exact Node.beq_iff x _
  | .storeN r1 c1, b => by cases b <;> simp [Node.beq]

theorem Node.beqList_iff : ∀ xs ys : List Node, Node.beqList xs ys = true ↔ xs = ys
  | [], ys => by cases ys <;> simp [Node.beqList]
  | x :: xs, ys => by
      cases ys with
      | nil => simp [Node.beqList]
      | cons y ys =>
          simp only [Node.beqList, Bool.and_eq_true, List.cons.injEq]
          rw [Node.beq_iff x y, Node.beqList_iff xs ys]

end

instance : DecidableEq Node := fun a b => decidable_of_iff _ (Node.beq_iff a b)

/-- Names of the built-in operations modelled here (vm.py builtin_*).
The host-I/O builtins (print, readLine, use, debug.*) are outside the
pure fragment and are not populated. -/
inductive BName where
  | blockB | chooseB | chainB
  | ltB | addB | subB | mulB | divB | modB
  | concatB | toStringB | toIntB | isVoidB | isNilB
deriving DecidableEq, Repr

/-- Runtime values (the `Thing` union of vm.py).  `blk` carries the block
body (a compiled Block's RunNodes correspond one-to-one to its AST body);
`cellRef` carries the address of the referenced Cell. -/
inductive Thing where
  | int (n : Int)
  | str (s : String)
  | blk (body : List Node)
  | builtin (b : BName)
  | voidV
  | nilV
  | trueV
  | falseV
  | cellRef (addr : Nat)
deriving DecidableEq

/-- `isinstance(x, CellRef)`. -/
def Thing.isCellRef : Thing → Bool
  | .cellRef _ => true
  | _ => false

/-- `isinstance(x, (Block, BuiltinBlock))`. -/
def Thing.isExec : Thing → Bool
  | .blk _ => true
  | .builtin _ => true
  | _ => false

/-- A Cell (vm.py class Cell): one value plus named children; children
hold heap addresses of the child Cells. -/
structure Cell where
  value : Thing
  children : String → Option Nat

/-- `Cell(value=v)`: fresh cell with no children. -/
def Cell.mk0 (v : Thing) : Cell := ⟨v, fun _ => none⟩

/-- The Store's state (vm.py class Store): the root dict plus the heap of
all allocated Cells.  `next` is the allocator frontier: addresses `< next`
are allocated. -/
structure St where
  root : String → Option Nat
  heap : Nat → Cell
  next : Nat

/-- A traversal position: the Store's root dict, or the `children` dict of
the Cell at an address. -/
inductive Loc where
  | rootLoc
  | childLoc (addr : Nat)
deriving DecidableEq, Repr

/-- Dictionary lookup at a position (`current[component]` / `current.get`). -/
def lookupLoc (s : St) : Loc → String → Option Nat
  | .rootLoc, k => s.root k
  | .childLoc a, k => (s.heap a).children k

/-- One CellRef-dereference hop: `if isinstance(cell.value, CellRef):
cell = cell.value.cell`. -/
def derefHop (s : St) (a : Nat) : Nat :=
  match (s.heap a).value with
  | .cellRef b => b
  | _ => a

/-- Set (or remove, with `none`) a dictionary entry at a position. -/
def setEntry (s : St) : Loc → String → Option Nat → St
  | .rootLoc, k, v => { s with root := fun k2 => if k2 = k then v else s.root k2 }
  | .childLoc a, k, v =>
      { s with heap := fun n =>
          if n = a then
            ⟨(s.heap a).value, fun k2 => if k2 = k then v else (s.heap a).children k2⟩
          else s.heap n }

/-- `cell.value = v` for the Cell at address `a`. -/
def setValue (s : St) (a : Nat) (v : Thing) : St :=
  { s with heap := fun n => if n = a then ⟨v, (s.heap n).children⟩ else s.heap n }

/-- `cell.children.clear()` for the Cell at address `a`. -/
def clearChildren (s : St) (a : Nat) : St :=
  { s with heap := fun n => if n = a then ⟨(s.heap n).value, fun _ => none⟩ else s.heap n }

/-- `current[component] = Cell(value=Void)`: allocate a fresh Void cell and
bind it at the given dictionary slot. -/
def allocAt (s : St) (l : Loc) (k : String) : St × Nat :=
  let a := s.next
  let s1 := setEntry s l k (some a)
  ({ s1 with heap := fun n => if n = a then Cell.mk0 .voidV else s1.heap n, next := a + 1 }, a)

/-- `if component not in current: current[component] = Cell(value=Void)`
followed by `current[component]`. -/
def ensure (s : St) (l : Loc) (k : String) : St × Nat :=
  match lookupLoc s l k with
  | some a => (s, a)
  | none => allocAt s l k

/-- `Store._get_cell`: resolve a path without creating; CellRef
dereferencing at every intermediate hop, none at the terminal. -/
def getCellA (s : St) (l : Loc) : List String → Option Nat
  | [] => none
  | [c] => lookupLoc s l c
  | c :: c2 :: cs =>
      match lookupLoc s l c with
      | none => none
      | some a => getCellA s (.childLoc (derefHop s a)) (c2 :: cs)

/-- `Store._get_or_create_cell`: resolve a path, auto-vivifying missing
intermediates and the terminal with Void cells; CellRef dereferencing at
every intermediate hop.  `none` only for the empty path (the source raises
there). -/
def getOrCreateA (s : St) (l : Loc) : List String → Option (St × Nat)
  | [] => none
  | [c] => some (ensure s l c)
  | c :: c2 :: cs =>
      let p := ensure s l c
      getOrCreateA p.1 (.childLoc (derefHop p.1 p.2)) (c2 :: cs)

/-- `Store._delete_cell`: navigate to the parent along *raw* children
(note: no CellRef dereferencing in the source) and delete the final
entry; silently returns if anything on the way is missing. -/
def deleteCellA (s : St) (l : Loc) : List String → St
  | [] => s
  | [c] => setEntry s l c none
  | c :: c2 :: cs =>
      match lookupLoc s l c with
      | none => s
      | some a => deleteCellA s (.childLoc a) (c2 :: cs)

/-- `Store.read_value`: `none` models the Undefined-path RuntimeError. -/
def readValue (s : St) (p : List String) : Option Thing :=
  (getCellA s .rootLoc p).map fun a => (s.heap a).value

/-- `Store.read_ref`: auto-vivifies, returns a CellRef to the terminal. -/
def readRef (s : St) (p : List String) : Option (St × Thing) :=
  (getOrCreateA s .rootLoc p).map fun q => (q.1, .cellRef q.2)

/-- `Store.write_value`: auto-vivify, then write through a CellRef at the
terminal unless the new value is itself a CellRef. -/
def writeValue (s : St) (p : List String) (v : Thing) : Option St :=
  (getOrCreateA s .rootLoc p).map fun q =>
    match (q.1.heap q.2).value with
    | .cellRef a => if v.isCellRef then setValue q.1 q.2 v else setValue q.1 a v
    | _ => setValue q.1 q.2 v

/-- `Store.write_ref`: Void triggers structural deletion; otherwise replace
the terminal Cell's value and clear its children. -/
def writeRef (s : St) (p : List String) (v : Thing) : Option St :=
  match v with
  | .voidV => some (deleteCellA s .rootLoc p)
  | _ =>
      (getOrCreateA s .rootLoc p).map fun q =>
        clearChildren (setValue q.1 q.2 v) q.2

/-- The empty Store state (no cells). -/
def St.empty : St := ⟨fun _ => none, fun _ => Cell.mk0 .voidV, 0⟩

/-- Allocate a root cell holding `v` (one step of `_populate_builtins`). -/
def addRoot (s : St) (k : String) (v : Thing) : St :=
  let p := allocAt s .rootLoc k
  setValue p.1 p.2 v

/-- `Store.__init__` / `_populate_builtins` restricted to the pure
fragment modelled here: control flow, constants, comparison, arithmetic,
strings, conversions, predicates. -/
def initSt : St :=
  let s := St.empty
  let s := addRoot s "block" (.builtin .blockB)
  let s := addRoot s "choose" (.builtin .chooseB)
  let s := addRoot s "chain" (.builtin .chainB)
  let s := addRoot s "True" .trueV
  let s := addRoot s "False" .falseV
  let s := addRoot s "Nil" .nilV
  let s := addRoot s "Void" .voidV
  let s := addRoot s "<" (.builtin .ltB)
  let s := addRoot s "+" (.builtin .addB)
  let s := addRoot s "-" (.builtin .subB)
  let s := addRoot s "*" (.builtin .mulB)
  let s := addRoot s "/" (.builtin .divB)
  let s := addRoot s "%" (.builtin .modB)
  let s := addRoot s "concat" (.builtin .concatB)
  let s := addRoot s "toString" (.builtin .toStringB)
  let s := addRoot s "toInt" (.builtin .toIntB)
  let s := addRoot s "isVoid" (.builtin .isVoidB)
  let s := addRoot s "isNil" (.builtin .isNilB)
  s

/-- Error classes of the VM's RuntimeErrors (spec taxonomy; each constructor
corresponds to one family of messages raised in vm.py).  `fuelOut` is not a
program error: it marks exhaustion of the interpreter's fuel. -/
inductive Err where
  | alUnderflow
  | undefinedPath
  | invalidRegPath
  | notExecutable
  | typeMismatch
  | divByZero
  | topLevelBlock
  | emptyPath
  | fuelOut
deriving DecidableEq, Repr

/-- VM state (vm.py class VM): the Store, the current Register (modelled
by the address of its root Cell bound at key `"_"`, `none` while absent —
a fresh `Register()` has an empty root dict), the AL (top of stack at the
head of the list) and the currently executing block's body.  Register
cells live in the same heap as Store cells, as in Python, so CellRefs can
cross between the two graphs. -/
structure VMState where
  store : St
  regRoot : Option Nat
  al : List Thing
  currentBlock : Option (List Node)

/-- `Register._validate_register_path`: non-empty and starting with the
sentinel `"_"` (the two distinct messages raised there are the same
Invalid-register-path class). -/
def validReg : List String → Bool
  | [] => false
  | c :: _ => c = "_"

/-- `Register._get_cell`: for the bare sentinel return the root Cell
(following a CellRef alias installed at it); for longer paths resolve the
root (following its alias) and then traverse like the Store does. -/
def regGetCell (m : VMState) : List String → Option Nat
  | [] => none
  | [_c] => m.regRoot.map fun a => derefHop m.store a
  | _c :: c2 :: cs =>
      match m.regRoot with
      | none => none
      | some a => getCellA m.store (.childLoc (derefHop m.store a)) (c2 :: cs)

/-- Allocate the Register root Cell `root["_"] = Cell(value=Void)`. -/
def allocRegRoot (m : VMState) : VMState × Nat :=
  let a := m.store.next
  ({ m with
      store := { m.store with
        heap := fun n => if n = a then Cell.mk0 .voidV else m.store.heap n,
        next := a + 1 },
      regRoot := some a }, a)

/-- `Register._get_or_create_cell` (via `_resolve_register_root` with
auto-vivification): create the root Cell if missing, follow a CellRef
alias at it, then traverse/auto-vivify like the Store does. -/
def regGetOrCreate (m : VMState) : List String → Option (VMState × Nat)
  | [] => none
  | [_c] =>
      match m.regRoot with
      | some a => some (m, derefHop m.store a)
      | none => some (allocRegRoot m)
  | _c :: c2 :: cs =>
      let p := match m.regRoot with
        | some a => (m, a)
        | none => allocRegRoot m
      (getOrCreateA p.1.store (.childLoc (derefHop p.1.store p.2)) (c2 :: cs)).map
        fun q => ({ p.1 with store := q.1 }, q.2)

/-- `Register.read_value`. -/
def regReadValue (m : VMState) (p : List String) : Except Err Thing :=
  if validReg p then
    match regGetCell m p with
    | none => .error .undefinedPath
    | some a => .ok ((m.store.heap a).value)
  else .error .invalidRegPath

/-- `Register.read_ref`. -/
def regReadRef (m : VMState) (p : List String) : Except Err (VMState × Thing) :=
  if validReg p then
    match regGetOrCreate m p with
    | none => .error .invalidRegPath
    | some (m1, a) => .ok (m1, .cellRef a)
  else .error .invalidRegPath

/-- `Register.write_value` (same write-through-CellRef rule as the Store). -/
def regWriteValue (m : VMState) (p : List String) (v : Thing) : Except Err VMState :=
  if validReg p then
    match regGetOrCreate m p with
    | none => .error .invalidRegPath
    | some (m1, t) =>
        .ok { m1 with store :=
          match (m1.store.heap t).value with
          | .cellRef a => if v.isCellRef then setValue m1.store t v else setValue m1.store a v
          | _ => setValue m1.store t v }
  else .error .invalidRegPath

/-- `Register._delete_cell`: raw navigation over `self.root` and children
(no CellRef dereferencing, not even of an alias installed at the root). -/
def regDelete (m : VMState) : List String → VMState
  | [] => m
  | [c] => if c = "_" then { m with regRoot := none } else m
  | c :: c2 :: cs =>
      if c = "_" then
        match m.regRoot with
        | none => m
        | some a => { m with store := deleteCellA m.store (.childLoc a) (c2 :: cs) }
      else m

/-- `Register.write_ref`. -/
def regWriteRef (m : VMState) (p : List String) (v : Thing) : Except Err VMState :=
  if validReg p then
    match v with
    | .voidV => .ok (regDelete m p)
    | _ =>
        match regGetOrCreate m p with
        | none => .error .invalidRegPath
        | some (m1, t) =>
            .ok { m1 with store := clearChildren (setValue m1.store t v) t }
  else .error .invalidRegPath

/-- `Nil/Void/False are falsy` (builtin_choose's condition test is
`not isinstance(condition, (NilSingleton, VoidSingleton, FalseSingleton))`). -/
def isFalsy : Thing → Bool
  | .nilV => true
  | .voidV => true
  | .falseV => true
  | _ => false

mutual

/-- Execute one RunNode (the closures produced by `compile_node`, one case
per AST node kind).  Fuel decreases on every recursive call; exhaustion
yields `Err.fuelOut`. -/
def execNode : Nat → VMState → Node → VMState × Option Err
  | 0, m, _ => (m, some .fuelOut)
  | _f + 1, m, .intN v => ({ m with al := .int v :: m.al }, none)
  | _f + 1, m, .strN v => ({ m with al := .str v :: m.al }, none)
  | _f + 1, m, .blkN body => ({ m with al := .blk body :: m.al }, none)
  | _f + 1, m, .valPath comps =>
      if comps.headD "" = "_" then
        match regReadValue m comps with
        | .error e => (m, some e)
        | .ok v => ({ m with al := v :: m.al }, none)
      else
        match readValue m.store comps with
        | none => (m, some .undefinedPath)
        | some v => ({ m with al := v :: m.al }, none)
  | _f + 1, m, .refPath comps =>
      if comps.headD "" = "_" then
        match regReadRef m comps with
        | .error e => (m, some e)
        | .ok (m1, v) => ({ m1 with al := v :: m1.al }, none)
      else
        match readRef m.store comps with
        | none => (m, some .emptyPath)
        | some (st1, v) => ({ m with store := st1, al := v :: m.al }, none)
  | f + 1, m, .execN target =>
      match execNode f m target with
      | (m1, some e) => (m1, some e)
      | (m1, none) =>
          match m1.al with
          | [] => (m1, some .alUnderflow)
          | t :: rest =>
              match t with
              | .blk body => execBlockFn f { m1 with al := rest } body
              | .builtin b => execBuiltinFn f { m1 with al := rest } b
              | .voidV => ({ m1 with al := rest }, some .alUnderflow)
              | .nilV => ({ m1 with al := rest }, some .alUnderflow)
              | _ => ({ m1 with al := rest }, some .notExecutable)
  | _f + 1, m, .storeN isRef comps =>
      match m.al with
      | [] => (m, some .alUnderflow)
      | v :: rest =>
          let m1 := { m with al := rest }
          if comps.headD "" = "_" then
            match (if isRef then regWriteRef m1 comps v else regWriteValue m1 comps v) with
            | .error e => (m1, some e)
            | .ok m2 => (m2, none)
          else
            match (if isRef then writeRef m1.store comps v else writeValue m1.store comps v) with
            | none => (m1, some .emptyPath)
            | some st2 => ({ m1 with store := st2 }, none)

/-- Execute a statement sequence, stopping at the first error
(`CompiledProgram.execute` / the body loop of `Block.execute`). -/
def execBody : Nat → VMState → List Node → VMState × Option Err
  | 0, m, _ => (m, some .fuelOut)
  | _f + 1, m, [] => (m, none)
  | f + 1, m, n :: ns =>
      match execNode f m n with
      | (m1, some e) => (m1, some e)
      | (m1, none) => execBody f m1 ns

/-- `Block.execute`: save the Register and current-block pointer, install a
fresh Register and self as current block, run the body, and restore the
saved values whether or not the body failed (the `try/finally` in the
source). -/
def execBlockFn : Nat → VMState → List Node → VMState × Option Err
  | 0, m, _ => (m, some .fuelOut)
  | f + 1, m, body =>
      match execBody f { m with regRoot := none, currentBlock := some body } body with
      | (m2, e) => ({ m2 with regRoot := m.regRoot, currentBlock := m.currentBlock }, e)

/-- The built-in operations (`builtin_block`, `builtin_choose`,
`builtin_chain` and the pure FFI builtins of vm.py).  Notes: `/` is
Python's floor division and `%` Python's modulo, i.e. `Int.fdiv`/`Int.fmod`;
`toInt` uses `String.toInt?` as the analogue of Python's `int(str)`. -/
def execBuiltinFn : Nat → VMState → BName → VMState × Option Err
  | 0, m, _ => (m, some .fuelOut)
  | _f + 1, m, .blockB =>
      match m.currentBlock with
      | none => (m, some .topLevelBlock)
      | some body => ({ m with al := .blk body :: m.al }, none)
  | _f + 1, m, .chooseB =>
      match m.al with
      | fv :: tv :: cond :: rest =>
          ({ m with al := (if isFalsy cond then fv else tv) :: rest }, none)
      | _ => (m, some .alUnderflow)
  | f + 1, m, .chainB =>
      match m.al with
      | [] => (m, some .alUnderflow)
      | t :: rest => chainLoop f { m with al := rest } t
  | _f + 1, m, .ltB =>
      match m.al with
      | b :: a :: rest =>
          match a, b with
          | .int x, .int y => ({ m with al := (if x < y then .trueV else .falseV) :: rest }, none)
          | .str x, .str y => ({ m with al := (if x < y then .trueV else .falseV) :: rest }, none)
          | _, _ => ({ m with al := rest }, some .typeMismatch)
      | _ => (m, some .alUnderflow)
  | _f + 1, m, .addB =>
      match m.al with
      | b :: a :: rest =>
          match a, b with
          | .int x, .int y => ({ m with al := .int (x + y) :: rest }, none)
          | _, _ => ({ m with al := rest }, some .typeMismatch)
      | _ => (m, some .alUnderflow)
  | _f + 1, m, .subB =>
      match m.al with
      | b :: a :: rest =>
          match a, b with
          | .int x, .int y => ({ m with al := .int (x - y) :: rest }, none)
          | _, _ => ({ m with al := rest }, some .typeMismatch)
      | _ => (m, some .alUnderflow)
  | _f + 1, m, .mulB =>
      match m.al with
      | b :: a :: rest =>
          match a, b with
          | .int x, .int y => ({ m with al := .int (x * y) :: rest }, none)
          | _, _ => ({ m with al := rest }, some .typeMismatch)
      | _ => (m, some .alUnderflow)
  | _f + 1, m, .divB =>
      match m.al with
      | b :: a :: rest =>
          match a, b with
          | .int x, .int y =>
              if y = 0 then ({ m with al := rest }, some .divByZero)
              else ({ m with al := .int (Int.fdiv x y) :: rest }, none)
          | _, _ => ({ m with al := rest }, some .typeMismatch)
      | _ => (m, some .alUnderflow)
  | _f + 1, m, .modB =>
      match m.al with
      | b :: a :: rest =>
          match a, b with
          | .int x, .int y =>
              if y = 0 then ({ m with al := rest }, some .divByZero)
              else ({ m with al := .int (Int.fmod x y) :: rest }, none)
          | _, _ => ({ m with al := rest }, some .typeMismatch)
      | _ => (m, some .alUnderflow)
  | _f + 1, m, .concatB =>
      match m.al with
      | b :: a :: rest =>
          match a, b with
          | .str x, .str y => ({ m with al := .str (x ++ y) :: rest }, none)
          | _, _ => ({ m with al := rest }, some .typeMismatch)
      | _ => (m, some .alUnderflow)
  | _f + 1, m, .toStringB =>
      match m.al with
      | v :: rest =>
          match v with
          | .int x => ({ m with al := .str (toString x) :: rest }, none)
          | _ => ({ m with al := rest }, some .typeMismatch)
      | _ => (m, some .alUnderflow)
  | _f + 1, m, .toIntB =>
      match m.al with
      | v :: rest =>
          match v with
          | .str x =>
              match x.toInt? with
              | some n => ({ m with al := .int n :: rest }, none)
              | none => ({ m with al := .nilV :: rest }, none)
          | _ => ({ m with al := rest }, some .typeMismatch)
      | _ => (m, some .alUnderflow)
  | _f + 1, m, .isVoidB =>
      match m.al with
      | v :: rest =>
          ({ m with al := (if v = .voidV then .trueV else .falseV) :: rest }, none)
      | _ => (m, some .alUnderflow)
  | _f + 1, m, .isNilB =>
      match m.al with
      | v :: rest =>
          ({ m with al := (if v = .nilV then .trueV else .falseV) :: rest }, none)
      | _ => (m, some .alUnderflow)

/-- The trampoline of `builtin_chain`: a non-executable value is pushed
back untouched; an executable one is executed; on success the loop pops
and continues while the new top of the AL is executable (when it stops
because the top is not executable, the previous — executable — value is
not pushed back). -/
def chainLoop : Nat → VMState → Thing → VMState × Option Err
  | fuel, m, t =>
      match t with
      | .blk body =>
          match fuel with
          | 0 => (m, some .fuelOut)
          | f + 1 =>
              match execBlockFn f m body with
              | (m1, some e) => (m1, some e)
              | (m1, none) =>
                  match m1.al with
                  | top :: rest =>
                      if top.isExec then chainLoop f { m1 with al := rest } top
                      else (m1, none)
                  | [] => (m1, none)
      | .builtin b =>
          match fuel with
          | 0 => (m, some .fuelOut)
          | f + 1 =>
              match execBuiltinFn f m b with
              | (m1, some e) => (m1, some e)
              | (m1, none) =>
                  match m1.al with
                  | top :: rest =>
                      if top.isExec then chainLoop f { m1 with al := rest } top
                      else (m1, none)
                  | [] => (m1, none)
      | _ => ({ m with al := t :: m.al }, none)

end

/-- A fresh VM (load_stdlib=False): pre-populated Store, empty fresh
Register, empty AL, no current block. -/
def initVM : VMState := ⟨initSt, none, [], none⟩

/-! ## Analysis definitions and concrete states used by the verification -/

/-- Validity of a traversal position: the root, or an allocated Cell. -/
def LocOk (s : St) : Loc → Prop
  | .rootLoc => True
  | .childLoc a => a < s.next

/-- Heap well-formedness: every address stored in the root dict, in an
allocated Cell's children, or in an allocated Cell's CellRef value is
itself allocated.  Python guarantees this trivially (object references
are always live); the heap model has to state it. -/
structure WFSt (s : St) : Prop where
  rootOk : ∀ k a, s.root k = some a → a < s.next
  childOk : ∀ n k a, n < s.next → (s.heap n).children k = some a → a < s.next
  valueOk : ∀ n b, n < s.next → (s.heap n).value = .cellRef b → b < s.next

/-- State extension: what one `_get_or_create_cell` traversal can do to the
heap — allocate fresh Void cells and add dictionary entries, preserving
every existing entry and every existing value. -/
structure Extends (s s1 : St) : Prop where
  next_le : s.next ≤ s1.next
  lookup_pres : ∀ l k a, LocOk s l → lookupLoc s l k = some a → lookupLoc s1 l k = some a
  value_pres : ∀ n, n < s.next → (s1.heap n).value = (s.heap n).value
  fresh_void : ∀ n, s.next ≤ n → n < s1.next → (s1.heap n).value = .voidV

/-- The dictionary-entry addresses consulted (and possibly dereferenced)
at the intermediate hops of a traversal — the Cells whose `value` steers
path resolution. -/
def hopAddrs (s : St) (l : Loc) : List String → List Nat
  | [] => []
  | [_c] => []
  | c :: c2 :: cs =>
      match lookupLoc s l c with
      | none => []
      | some a => a :: hopAddrs s (.childLoc (derefHop s a)) (c2 :: cs)

/-- `p` resolves in `s` meeting no CellRef at any intermediate hop (so the
alias-following resolution and the raw-children navigation coincide), and
the terminal entry exists. -/
def plainPath (s : St) (l : Loc) : List String → Bool
  | [] => false
  | [c] => (lookupLoc s l c).isSome
  | c :: c2 :: cs =>
      match lookupLoc s l c with
      | none => false
      | some a => !(s.heap a).value.isCellRef && plainPath s (.childLoc a) (c2 :: cs)

/-- The raw (no CellRef dereferencing) navigation `_delete_cell` performs
over `components[:-1]`. -/
def rawNav (s : St) (l : Loc) : List String → Option Loc
  | [] => some l
  | c :: cs =>
      match lookupLoc s l c with
      | none => none
      | some a => rawNav s (.childLoc a) cs

/-- The address whose `value` a `write_value` call actually assigns: the
resolved terminal, except that a non-CellRef value written over a CellRef
terminal goes through to the aliased Cell. -/
def writeTargetAddr (s1 : St) (t : Nat) (v : Thing) : Nat :=
  match (s1.heap t).value with
  | .cellRef a => if v.isCellRef then t else a
  | _ => t

/-- No-interference check for `write_value(p, v)`: the path resolves and
the Cell the write assigns is not one of the Cells whose value steers
`p`'s own intermediate-hop resolution.  (Always true in CellRef-free
regions; violated only by CellRef cycles threading `p` through its own
write target.) -/
def writeUndisturbed (s : St) (p : List String) (v : Thing) : Bool :=
  match getOrCreateA s .rootLoc p with
  | none => false
  | some q => decide (writeTargetAddr q.1 q.2 v ∉ hopAddrs q.1 .rootLoc p)

/-- Modelled from the spec's resolution rationale ("at each intermediate
hop, if the resolved Cell's value is a CellRef, traversal continues into
the aliased Cell's children ... with no special-casing per call site"):
a structural deletion that follows CellRef aliasing at intermediate hops.
The source's `Store._delete_cell` does NOT do this; the definition exists
to exhibit the divergence. -/
def deleteCellAliasedSpec (s : St) (l : Loc) : List String → St
  | [] => s
  | [c] => setEntry s l c none
  | c :: c2 :: cs =>
      match lookupLoc s l c with
      | none => s
      | some a => deleteCellAliasedSpec s (.childLoc (derefHop s a)) (c2 :: cs)

/-- `42 !data.x` then `data. !ref` on a fresh Store: the Cell at `ref`
holds a CellRef to the `data` Cell. -/
def aliasBase : St :=
  let s1 := (writeValue initSt ["data", "x"] (.int 42)).getD initSt
  let r := ((readRef s1 ["data"]).map fun q => q.2).getD .voidV
  (writeValue s1 ["ref"] r).getD s1

/-- `aliasBase` after `Void !ref.x.` — `write_ref(["ref","x"], Void)`. -/
def aliasDeleted : St := (writeRef aliasBase ["ref", "x"] .voidV).getD aliasBase

/-- `5 !a.b` then `a. !a.b.c` on a fresh Store: `a.b.c` holds a CellRef
back to the `a` Cell, so the path `a.b.c.b` resolves through that alias
to the `a.b` Cell (which holds 5). -/
def cycleBase : St :=
  let s1 := (writeValue initSt ["a", "b"] (.int 5)).getD initSt
  let r := ((readRef s1 ["a"]).map fun q => q.2).getD .voidV
  (writeValue s1 ["a", "b", "c"] r).getD s1

/-- A CellRef to `cycleBase`'s `a` Cell. -/
def cycleRef : Thing := ((readRef cycleBase ["a"]).map fun q => q.2).getD .voidV

/-- `cycleBase` after `write_value(["a","b","c","b"], cycleRef)`: the write
lands on the `a.b` Cell and turns it into a CellRef, re-routing the very
path that was written. -/
def cycleAfter : St := (writeValue cycleBase ["a", "b", "c", "b"] cycleRef).getD cycleBase

/-- `7 !a` on a fresh Store. -/
def shadowA : St := (writeValue initSt ["a"] (.int 7)).getD initSt

/-- `shadowA` after `99 !a.b`: the parent `a` already held 7. -/
def shadowAB : St := (writeValue shadowA ["a", "b"] (.int 99)).getD shadowA

/-- Scenario B's Store: `99 !a.b.c` on a fresh Store. -/
def scenB : St := (writeValue initSt ["a", "b", "c"] (.int 99)).getD initSt

/-- `42 !temp` on a fresh Store (an alias-free existing path). -/
def plainTemp : St := (writeValue initSt ["temp"] (.int 42)).getD initSt

/-- The AL of Scenario E just before `>choose` runs: `1 2 3 Void 100 200
300` pushed in order (top of stack at the head). -/
def chooseScenVM : VMState :=
  ⟨initSt, none, [.int 300, .int 200, .int 100, .voidV, .int 3, .int 2, .int 1], none⟩

/-- Scenario E as a compiled program: `1 2 3 Void 100 200 300 >choose`. -/
def scenEProg : List Node :=
  [.intN 1, .intN 2, .intN 3, .valPath ["Void"], .intN 100, .intN 200, .intN 300,
   .execN (.valPath ["choose"])]



theorem wfSt_empty : WFSt St.empty := by
  constructor <;> intros <;> simp_all [St.empty]

theorem locOk_mono {s s' : St} {l : Loc} (h : s.next ≤ s'.next) (hl : LocOk s l) :
    LocOk s' l := by
  cases l with
  | rootLoc => trivial
  | childLoc a =>
      simp only [LocOk] at hl ⊢
      omega

theorem derefHop_lt {s : St} {a : Nat} (hwf : WFSt s) (ha : a < s.next) :
    derefHop s a < s.next := by
  unfold derefHop
  cases hv : (s.heap a).value <;> try exact ha
  exact hwf.valueOk a _ ha hv

theorem lookupLoc_setValue (s : St) (c : Nat) (v : Thing) (l : Loc) (k : String) :
    lookupLoc (setValue s c v) l k = lookupLoc s l k := by
  cases l with
  | rootLoc => rfl
  | childLoc a =>
      simp only [lookupLoc, setValue]
      split <;> simp_all

theorem heapValue_setValue (s : St) (c : Nat) (v : Thing) (n : Nat) :
    ((setValue s c v).heap n).value = if n = c then v else (s.heap n).value := by
  simp only [setValue]
  split <;> simp_all

theorem next_setValue (s : St) (c : Nat) (v : Thing) : (setValue s c v).next = s.next := rfl

theorem next_setEntry (s : St) (l : Loc) (k : String) (e : Option Nat) :
    (setEntry s l k e).next = s.next := by
  cases l <;> rfl

theorem heapValue_setEntry (s : St) (l : Loc) (k : String) (e : Option Nat) (n : Nat) :
    ((setEntry s l k e).heap n).value = (s.heap n).value := by
  cases l with
  | rootLoc => rfl
  | childLoc a =>
      simp only [setEntry]
      split <;> simp_all

theorem lookupLoc_setEntry (s : St) (l0 : Loc) (k0 : String) (e : Option Nat)
    (l : Loc) (k : String) :
    lookupLoc (setEntry s l0 k0 e) l k =
      if l = l0 ∧ k = k0 then e else lookupLoc s l k := by
  cases l0 with
  | rootLoc =>
      cases l with
      | rootLoc =>
          simp only [lookupLoc, setEntry]
          by_cases hk : k = k0 <;> simp [hk]
      | childLoc a => simp [lookupLoc, setEntry]
  | childLoc a0 =>
      cases l with
      | rootLoc => simp [lookupLoc, setEntry]
      | childLoc a =>
          simp only [lookupLoc, setEntry]
          by_cases ha : a = a0
          · subst ha
            by_cases hk : k = k0 <;> simp [hk]
          · simp [ha]

theorem allocAt_snd (s : St) (l : Loc) (k : String) : (allocAt s l k).2 = s.next := rfl

theorem next_allocAt (s : St) (l : Loc) (k : String) :
    (allocAt s l k).1.next = s.next + 1 := rfl

theorem heapValue_allocAt (s : St) (l : Loc) (k : String) (n : Nat) :
    ((allocAt s l k).1.heap n).value = if n = s.next then .voidV else (s.heap n).value := by
  simp only [allocAt]
  split
  · rfl
  · exact heapValue_setEntry s l k (some s.next) n

theorem heapChildren_allocAt_fresh (s : St) (l : Loc) (k k2 : String) :
    ((allocAt s l k).1.heap s.next).children k2 = none := by
  simp [allocAt, Cell.mk0]

theorem lookupLoc_allocAt (s : St) (l : Loc) (k : String) (l2 : Loc) (k2 : String)
    (hne : l2 ≠ Loc.childLoc s.next) :
    lookupLoc (allocAt s l k).1 l2 k2 =
      if l2 = l ∧ k2 = k then some s.next else lookupLoc s l2 k2 := by
  have h1 : lookupLoc (allocAt s l k).1 l2 k2
      = lookupLoc (setEntry s l k (some s.next)) l2 k2 := by
    cases l2 with
    | rootLoc => rfl
    | childLoc a =>
        have ha : ¬ (a = s.next) := by simpa using hne
        simp only [allocAt, lookupLoc]
        simp [ha]
  rw [h1, lookupLoc_setEntry]


theorem Extends.rfl0 (s : St) : Extends s s := by
  refine ⟨le_rfl, ?_, ?_, ?_⟩
  · intro l k a _ h
    exact h
  · intro n _
    rfl
  · intro n h1 h2
    omega

theorem Extends.comp {s1 s2 s3 : St} (h12 : Extends s1 s2) (h23 : Extends s2 s3) :
    Extends s1 s3 := by
  constructor
  · exact le_trans h12.next_le h23.next_le
  · intro l k a hl hs
    exact h23.lookup_pres l k a (locOk_mono h12.next_le hl) (h12.lookup_pres l k a hl hs)
  · intro n hn
    rw [h23.value_pres n (lt_of_lt_of_le hn h12.next_le), h12.value_pres n hn]
  · intro n hn1 hn3
    by_cases h2 : n < s2.next
    · rw [h23.value_pres n h2, h12.fresh_void n hn1 h2]
    · exact h23.fresh_void n (le_of_not_lt h2) hn3

theorem locOk_not_fresh {s : St} {l : Loc} (hl : LocOk s l) :
    l ≠ Loc.childLoc s.next := by
  cases l with
  | rootLoc => simp
  | childLoc a =>
      simp only [LocOk] at hl
      simp only [ne_eq, Loc.childLoc.injEq]
      omega

theorem wfSt_allocAt (s : St) (l : Loc) (k : String) (hwf : WFSt s) :
    WFSt (allocAt s l k).1 := by
  constructor
  · intro k2 a2 h2
    have h2' : lookupLoc (allocAt s l k).1 .rootLoc k2 = some a2 := h2
    rw [lookupLoc_allocAt s l k _ _ (by simp)] at h2'
    rw [next_allocAt]
    split at h2'
    · cases h2'
      omega
    · have := hwf.rootOk k2 a2 h2'
      omega
  · intro n k2 a2 hn h2
    rw [next_allocAt] at hn
    rw [next_allocAt]
    by_cases hfresh : n = s.next
    · subst hfresh
      rw [heapChildren_allocAt_fresh] at h2
      cases h2
    · have h2' : lookupLoc (allocAt s l k).1 (.childLoc n) k2 = some a2 := h2
      rw [lookupLoc_allocAt s l k _ _ (by simp [hfresh])] at h2'
      split at h2'
      · cases h2'
        omega
      · have := hwf.childOk n k2 a2 (by omega) h2'
        omega
  · intro n b hn hv
    rw [next_allocAt] at hn
    rw [next_allocAt]
    rw [heapValue_allocAt] at hv
    split at hv
    · cases hv
    · have := hwf.valueOk n b (by omega) hv
      omega

theorem extends_allocAt (s : St) (l : Loc) (k : String)
    (hnone : lookupLoc s l k = none) : Extends s (allocAt s l k).1 := by
  constructor
  · rw [next_allocAt]
    omega
  · intro l2 k2 a2 hl2 hs2
    rw [lookupLoc_allocAt s l k l2 k2 (locOk_not_fresh hl2)]
    split
    · rename_i hcond
      rw [hcond.1, hcond.2] at hs2
      rw [hnone] at hs2
      cases hs2
    · exact hs2
  · intro n hn
    rw [heapValue_allocAt]
    split
    · omega
    · rfl
  · intro n hn1 hn2
    rw [next_allocAt] at hn2
    have : n = s.next := by omega
    subst this
    rw [heapValue_allocAt]
    simp

theorem ensure_spec (s : St) (l : Loc) (k : String) (hwf : WFSt s) (hl : LocOk s l) :
    WFSt (ensure s l k).1 ∧ Extends s (ensure s l k).1 ∧
      (ensure s l k).2 < (ensure s l k).1.next ∧
      lookupLoc (ensure s l k).1 l k = some (ensure s l k).2 := by
  cases h : lookupLoc s l k with
  | some a =>
      have he : ensure s l k = (s, a) := by
        simp [ensure, h]
      rw [he]
      refine ⟨hwf, Extends.rfl0 s, ?_, h⟩
      cases l with
      | rootLoc => exact hwf.rootOk k a h
      | childLoc a0 => exact hwf.childOk a0 k a hl h
  | none =>
      have he : ensure s l k = allocAt s l k := by
        simp [ensure, h]
      rw [he]
      refine ⟨wfSt_allocAt s l k hwf, extends_allocAt s l k h, ?_, ?_⟩
      · rw [next_allocAt, allocAt_snd]
        omega
      · rw [lookupLoc_allocAt s l k l k (locOk_not_fresh hl), allocAt_snd]
        simp


theorem getOrCreateA_extends :
    ∀ (p : List String) (s : St) (l : Loc) (s1 : St) (t : Nat),
      WFSt s → LocOk s l → getOrCreateA s l p = some (s1, t) →
      WFSt s1 ∧ Extends s s1 ∧ t < s1.next := by
  intro p
  induction p with
  | nil =>
      intro s l s1 t _ _ h
      simp [getOrCreateA] at h
  | cons c cs ih =>
      intro s l s1 t hwf hl h
      obtain ⟨hqw, hqe, hqlt, hqlook⟩ := ensure_spec s l c hwf hl
      cases cs with
      | nil =>
          simp only [getOrCreateA, Option.some.injEq] at h
          have h1 : s1 = (ensure s l c).1 := by rw [h]
          have h2 : t = (ensure s l c).2 := by rw [h]
          subst h1
          subst h2
          exact ⟨hqw, hqe, hqlt⟩
      | cons c2 cs2 =>
          simp only [getOrCreateA] at h
          have hloc : LocOk (ensure s l c).1
              (Loc.childLoc (derefHop (ensure s l c).1 (ensure s l c).2)) :=
            derefHop_lt hqw hqlt
          obtain ⟨hw1, he1, ht1⟩ := ih (ensure s l c).1 _ s1 t hqw hloc h
          exact ⟨hw1, hqe.comp he1, ht1⟩

theorem getOrCreateA_getCellA :
    ∀ (p : List String) (s : St) (l : Loc) (s1 : St) (t : Nat),
      WFSt s → LocOk s l → getOrCreateA s l p = some (s1, t) →
      getCellA s1 l p = some t := by
  intro p
  induction p with
  | nil =>
      intro s l s1 t _ _ h
      simp [getOrCreateA] at h
  | cons c cs ih =>
      intro s l s1 t hwf hl h
      obtain ⟨hqw, hqe, hqlt, hqlook⟩ := ensure_spec s l c hwf hl
      cases cs with
      | nil =>
          simp only [getOrCreateA, Option.some.injEq] at h
          have h1 : s1 = (ensure s l c).1 := by rw [h]
          have h2 : t = (ensure s l c).2 := by rw [h]
          subst h1
          subst h2
          simpa [getCellA] using hqlook
      | cons c2 cs2 =>
          simp only [getOrCreateA] at h
          have hloc : LocOk (ensure s l c).1
              (Loc.childLoc (derefHop (ensure s l c).1 (ensure s l c).2)) :=
            derefHop_lt hqw hqlt
          obtain ⟨hw1, he1, ht1⟩ := getOrCreateA_extends _ _ _ _ _ hqw hloc h
          have hrec := ih (ensure s l c).1 _ s1 t hqw hloc h
          have hlook1 : lookupLoc s1 l c = some (ensure s l c).2 :=
            he1.lookup_pres l c _ (locOk_mono hqe.next_le hl) hqlook
          have hderef : derefHop s1 (ensure s l c).2
              = derefHop (ensure s l c).1 (ensure s l c).2 := by
            unfold derefHop
            rw [he1.value_pres _ hqlt]
          simp only [getCellA, hlook1, hderef]
          exact hrec

theorem getCellA_lt :
    ∀ (p : List String) (s : St) (l : Loc) (t : Nat),
      WFSt s → LocOk s l → getCellA s l p = some t → t < s.next := by
  intro p
  induction p with
  | nil =>
      intro s l t _ _ h
      simp [getCellA] at h
  | cons c cs ih =>
      intro s l t hwf hl h
      cases cs with
      | nil =>
          simp only [getCellA] at h
          cases l with
          | rootLoc => exact hwf.rootOk c t h
          | childLoc a0 => exact hwf.childOk a0 c t hl h
      | cons c2 cs2 =>
          simp only [getCellA] at h
          cases hc : lookupLoc s l c with
          | none => rw [hc] at h; exact Option.noConfusion h
          | some a =>
              simp only [hc] at h
              have ha : a < s.next := by
                cases l with
                | rootLoc => exact hwf.rootOk c a hc
                | childLoc a0 => exact hwf.childOk a0 c a hl hc
              exact ih s (.childLoc (derefHop s a)) t hwf (derefHop_lt hwf ha) h

theorem getCellA_extends :
    ∀ (p : List String) (s s' : St) (l : Loc) (t : Nat),
      WFSt s → LocOk s l → Extends s s' → getCellA s l p = some t →
      getCellA s' l p = some t := by
  intro p
  induction p with
  | nil =>
      intro s s' l t _ _ _ h
      simp [getCellA] at h
  | cons c cs ih =>
      intro s s' l t hwf hl he h
      cases cs with
      | nil =>
          simp only [getCellA] at h ⊢
          exact he.lookup_pres l c t hl h
      | cons c2 cs2 =>
          simp only [getCellA] at h ⊢
          cases hc : lookupLoc s l c with
          | none => rw [hc] at h; exact Option.noConfusion h
          | some a =>
              simp only [hc] at h
              have ha : a < s.next := by
                cases l with
                | rootLoc => exact hwf.rootOk c a hc
                | childLoc a0 => exact hwf.childOk a0 c a hl hc
              have hderef : derefHop s' a = derefHop s a := by
                unfold derefHop
                rw [he.value_pres a ha]
              simp only [he.lookup_pres l c a hl hc, hderef]
              exact ih s s' (.childLoc (derefHop s a)) t hwf (derefHop_lt hwf ha) he h

theorem getCellA_getOrCreateA :
    ∀ (p : List String) (s : St) (l : Loc) (t : Nat),
      getCellA s l p = some t → getOrCreateA s l p = some (s, t) := by
  intro p
  induction p with
  | nil =>
      intro s l t h
      simp [getCellA] at h
  | cons c cs ih =>
      intro s l t h
      cases cs with
      | nil =>
          simp only [getCellA] at h
          simp [getOrCreateA, ensure, h]
      | cons c2 cs2 =>
          simp only [getCellA] at h
          cases hc : lookupLoc s l c with
          | none => rw [hc] at h; exact Option.noConfusion h
          | some a =>
              simp only [hc] at h
              have hens : ensure s l c = (s, a) := by simp [ensure, hc]
              simp only [getOrCreateA, hens]
              exact ih s (.childLoc (derefHop s a)) t h

theorem derefHop_setValue {s : St} {c a : Nat} (v : Thing) (hne : a ≠ c) :
    derefHop (setValue s c v) a = derefHop s a := by
  unfold derefHop
  rw [heapValue_setValue]
  simp [hne]

theorem getCellA_setValue_stable :
    ∀ (p : List String) (s : St) (l : Loc) (t c : Nat) (v : Thing),
      getCellA s l p = some t → c ∉ hopAddrs s l p →
      getCellA (setValue s c v) l p = some t := by
  intro p
  induction p with
  | nil =>
      intro s l t c v h _
      simp [getCellA] at h
  | cons c0 cs ih =>
      intro s l t c v h hmem
      cases cs with
      | nil =>
          simp only [getCellA] at h ⊢
          rw [lookupLoc_setValue]
          exact h
      | cons c2 cs2 =>
          simp only [getCellA] at h ⊢
          cases hc : lookupLoc s l c0 with
          | none => rw [hc] at h; exact Option.noConfusion h
          | some a =>
              simp only [hc] at h
              simp only [hopAddrs, hc, List.mem_cons] at hmem
              push_neg at hmem
              rw [lookupLoc_setValue]
              simp only [hc, derefHop_setValue v (Ne.symm hmem.1)]
              exact ih s (.childLoc (derefHop s a)) t c v h hmem.2



theorem derefHop_congr {s s' : St} {a : Nat}
    (h : (s'.heap a).value = (s.heap a).value) : derefHop s' a = derefHop s a := by
  unfold derefHop
  rw [h]

theorem derefHop_not_ref {s : St} {a : Nat}
    (h : (s.heap a).value.isCellRef = false) : derefHop s a = a := by
  unfold derefHop
  cases hv : (s.heap a).value <;> simp_all [Thing.isCellRef]

theorem heapValue_deleteCellA :
    ∀ (p : List String) (s : St) (l : Loc) (n : Nat),
      ((deleteCellA s l p).heap n).value = (s.heap n).value := by
  intro p
  induction p with
  | nil => intro s l n; rfl
  | cons c cs ih =>
      intro s l n
      cases cs with
      | nil => exact heapValue_setEntry s l c none n
      | cons c2 cs2 =>
          simp only [deleteCellA]
          cases hc : lookupLoc s l c with
          | none => rfl
          | some a => exact ih s (.childLoc a) n

theorem lookup_deleteCellA :
    ∀ (p0 : List String) (s : St) (l0 l : Loc) (k : String),
      lookupLoc (deleteCellA s l0 p0) l k = lookupLoc s l k ∨
      lookupLoc (deleteCellA s l0 p0) l k = none := by
  intro p0
  induction p0 with
  | nil => intro s l0 l k; exact Or.inl rfl
  | cons c cs ih =>
      intro s l0 l k
      cases cs with
      | nil =>
          simp only [deleteCellA]
          rw [lookupLoc_setEntry]
          split
          · exact Or.inr rfl
          · exact Or.inl rfl
      | cons c2 cs2 =>
          simp only [deleteCellA]
          cases hc : lookupLoc s l0 c with
          | none => exact Or.inl rfl
          | some a => exact ih s (.childLoc a) l k

theorem getCellA_cons_none {s : St} {l : Loc} {c : String} (cs : List String)
    (h : lookupLoc s l c = none) : getCellA s l (c :: cs) = none := by
  cases cs with
  | nil => simpa [getCellA] using h
  | cons c2 cs2 => simp [getCellA, h]

theorem delete_plain_getCellA_none :
    ∀ (p : List String) (s : St) (l : Loc),
      plainPath s l p = true →
      getCellA (deleteCellA s l p) l p = none := by
  intro p
  induction p with
  | nil => intro s l h; simp [plainPath] at h
  | cons c cs ih =>
      intro s l h
      cases cs with
      | nil =>
          simp only [deleteCellA, getCellA]
          rw [lookupLoc_setEntry]
          simp
      | cons c2 cs2 =>
          simp only [plainPath] at h
          cases hc : lookupLoc s l c with
          | none => rw [hc] at h; exact Bool.noConfusion h
          | some a =>
              rw [hc] at h
              simp only [Bool.and_eq_true, Bool.not_eq_true'] at h
              obtain ⟨hnr, hrec⟩ := h
              simp only [deleteCellA, hc]
              cases hl' : lookupLoc (deleteCellA s (.childLoc a) (c2 :: cs2)) l c with
              | none => exact getCellA_cons_none _ hl'
              | some a2 =>
                  have ha2 : a2 = a := by
                    rcases lookup_deleteCellA (c2 :: cs2) s (.childLoc a) l c with hsame | hnone
                    · rw [hl', hc] at hsame
                      exact (Option.some.injEq _ _).mp hsame
                    · rw [hl'] at hnone
                      exact Option.noConfusion hnone
                  subst ha2
                  simp only [getCellA, hl']
                  have hd : derefHop (deleteCellA s (.childLoc a2) (c2 :: cs2)) a2 = a2 := by
                    rw [derefHop_congr (heapValue_deleteCellA (c2 :: cs2) s (.childLoc a2) a2)]
                    exact derefHop_not_ref hnr
                  rw [hd]
                  exact ih s (.childLoc a2) hrec

theorem deleteCellA_missing_parent :
    ∀ (p : List String) (s : St) (l : Loc),
      rawNav s l p.dropLast = none → deleteCellA s l p = s := by
  intro p
  induction p with
  | nil =>
      intro s l h
      simp [rawNav] at h
  | cons c cs ih =>
      intro s l h
      cases cs with
      | nil => simp [rawNav] at h
      | cons c2 cs2 =>
          have hdl : (c :: c2 :: cs2).dropLast = c :: (c2 :: cs2).dropLast := rfl
          rw [hdl] at h
          simp only [rawNav] at h
          cases hc : lookupLoc s l c with
          | none => simp [deleteCellA, hc]
          | some a =>
              rw [hc] at h
              simp only [deleteCellA, hc]
              exact ih s (.childLoc a) h



theorem writeValue_eq_setValue_target {s : St} {p : List String} {s1 : St} {t : Nat}
    (v : Thing) (hg : getOrCreateA s .rootLoc p = some (s1, t)) :
    writeValue s p v = some (setValue s1 (writeTargetAddr s1 t v) v) := by
  unfold writeValue writeTargetAddr
  rw [hg]
  simp only [Option.map_some']
  cases hval : (s1.heap t).value <;> simp only [Option.some.injEq]
  case cellRef a =>
      by_cases hvr : v.isCellRef <;> simp [hvr]

/-- C1 (amended): for every non-empty path P and value V on a well-formed
Store, provided the write's value assignment does not disturb P's own
resolution (`writeUndisturbed` — automatic unless a CellRef cycle routes P
through its own write target), `write_value(P, V)` then `read_value(P)`
returns V, except when P's terminal Cell held a CellRef and V is not one:
then the write goes through to the aliased Cell (whose value becomes V)
and the read returns P's own CellRef to that aliased Cell (or V itself
when the terminal aliases itself).  The un-amended claim, quantified over
all stores, is refuted by `write_value_cycle_counterexample`. -/
theorem write_value_round_trip (s : St) (p : List String) (v : Thing)
    (hwf : WFSt s) (_hp : p ≠ []) (hu : writeUndisturbed s p v = true) :
    ∃ s1 t s2, getOrCreateA s .rootLoc p = some (s1, t) ∧
      writeValue s p v = some s2 ∧
      (((s1.heap t).value.isCellRef = false ∨ v.isCellRef = true) →
          readValue s2 p = some v) ∧
      (∀ a, (s1.heap t).value = .cellRef a → v.isCellRef = false →
          (s2.heap a).value = v ∧
          readValue s2 p = some (if a = t then v else .cellRef a)) := by
  unfold writeUndisturbed at hu
  cases hg : getOrCreateA s .rootLoc p with
  | none => rw [hg] at hu; exact Bool.noConfusion hu
  | some q =>
      obtain ⟨s1, t⟩ := q
      rw [hg] at hu
      have hnotin : writeTargetAddr s1 t v ∉ hopAddrs s1 .rootLoc p :=
        of_decide_eq_true hu
      have hret : getCellA s1 .rootLoc p = some t :=
        getOrCreateA_getCellA p s .rootLoc s1 t hwf trivial hg
      have hwv := writeValue_eq_setValue_target v hg
      refine ⟨s1, t, setValue s1 (writeTargetAddr s1 t v) v, rfl, hwv, ?_, ?_⟩
      · intro hmain
        have htt : writeTargetAddr s1 t v = t := by
          unfold writeTargetAddr
          rcases hmain with hmain | hmain
          · cases hval : (s1.heap t).value <;> simp_all [Thing.isCellRef]
          · cases hval : (s1.heap t).value <;> simp [hmain]
        rw [htt] at hnotin ⊢
        have hstable : getCellA (setValue s1 t v) .rootLoc p = some t :=
          getCellA_setValue_stable p s1 .rootLoc t t v hret hnotin
        simp [readValue, hstable, heapValue_setValue]
      · intro a ha hvnr
        have hta : writeTargetAddr s1 t v = a := by
          unfold writeTargetAddr
          rw [ha, hvnr]
          simp
        rw [hta] at hnotin ⊢
        have hstable : getCellA (setValue s1 a v) .rootLoc p = some t :=
          getCellA_setValue_stable p s1 .rootLoc t a v hret hnotin
        constructor
        · rw [heapValue_setValue]
          simp
        · simp only [readValue, hstable, Option.map_some']
          rw [heapValue_setValue]
          by_cases hat : a = t
          · simp [hat]
          · have : ¬ (t = a) := fun hh => hat hh.symm
            simp [hat, this, ha]

theorem derefHop_allocAt_fresh (s : St) (l : Loc) (k : String) :
    derefHop (allocAt s l k).1 s.next = s.next := by
  unfold derefHop
  rw [heapValue_allocAt]
  simp

theorem getOrCreateA_append (x : String) :
    ∀ (p : List String) (s : St) (l : Loc) (s1 : St) (t : Nat),
      WFSt s → LocOk s l → p ≠ [] →
      getOrCreateA s l (p ++ [x]) = some (s1, t) →
      ∃ b, getCellA s1 l p = some b ∧
        hopAddrs s1 l (p ++ [x]) = hopAddrs s1 l p ++ [b] ∧
        (b < s.next → getCellA s l p = some b) ∧
        (s.next ≤ b → (s1.heap b).value = .voidV) := by
  intro p
  induction p with
  | nil =>
      intro s l s1 t _ _ hp _
      exact absurd rfl hp
  | cons c cs ih =>
      intro s l s1 t hwf hl _ h
      obtain ⟨hqw, hqe, hqlt, hqlook⟩ := ensure_spec s l c hwf hl
      have hloc : LocOk (ensure s l c).1
          (Loc.childLoc (derefHop (ensure s l c).1 (ensure s l c).2)) :=
        derefHop_lt hqw hqlt
      cases cs with
      | nil =>
          -- p = [c], p ++ [x] = [c, x]
          simp only [List.cons_append, List.nil_append, getOrCreateA,
            Option.some.injEq] at h
          obtain ⟨hq2w, hq2e, hq2lt, hq2look⟩ :=
            ensure_spec (ensure s l c).1 _ x hqw hloc
          have hs1 : (ensure (ensure s l c).1
              (Loc.childLoc (derefHop (ensure s l c).1 (ensure s l c).2)) x).1 = s1 := by
            rw [h]
          rw [hs1] at hq2w hq2e hq2look hq2lt
          refine ⟨(ensure s l c).2, ?_, ?_, ?_, ?_⟩
          · have hlook1 : lookupLoc s1 l c = some (ensure s l c).2 :=
              hq2e.lookup_pres l c _ (locOk_mono hqe.next_le hl) hqlook
            simpa [getCellA] using hlook1
          · have hlook1 : lookupLoc s1 l c = some (ensure s l c).2 :=
              hq2e.lookup_pres l c _ (locOk_mono hqe.next_le hl) hqlook
            simp [hopAddrs, hlook1]
          · intro hb
            cases hc : lookupLoc s l c with
            | some a =>
                have hens : ensure s l c = (s, a) := by simp [ensure, hc]
                rw [hens]
                simpa [getCellA] using hc
            | none =>
                have hens : ensure s l c = allocAt s l c := by simp [ensure, hc]
                rw [hens, allocAt_snd] at hb
                omega
          · intro hb
            cases hc : lookupLoc s l c with
            | some a =>
                have hens1 : (ensure s l c).1 = s := by simp [ensure, hc]
                have hens2 : (ensure s l c).2 = a := by simp [ensure, hc]
                rw [hens2] at hb
                rw [hens1, hens2] at hqlt
                omega
            | none =>
                have hens : ensure s l c = allocAt s l c := by simp [ensure, hc]
                rw [hens, allocAt_snd] at hb ⊢
                have hv1 : ((allocAt s l c).1.heap s.next).value = .voidV := by
                  rw [heapValue_allocAt]
                  simp
                have hpres := hq2e.value_pres s.next
                rw [hens] at hpres
                rw [hpres (by rw [next_allocAt]; omega)]
                exact hv1
      | cons c2 cs2 =>
          -- p = c :: c2 :: cs2
          simp only [List.cons_append, getOrCreateA] at h
          -- h : getOrCreateA (ensure s l c).1 loc ((c2 :: cs2) ++ [x]) = some (s1, t)
          obtain ⟨hw1, he1, ht1⟩ := getOrCreateA_extends _ _ _ _ _ hqw hloc h
          obtain ⟨b, ihb1, ihb2, ihb3, ihb4⟩ :=
            ih (ensure s l c).1 _ s1 t hqw hloc (by simp) h
          have hlook1 : lookupLoc s1 l c = some (ensure s l c).2 :=
            he1.lookup_pres l c _ (locOk_mono hqe.next_le hl) hqlook
          have hderef : derefHop s1 (ensure s l c).2
              = derefHop (ensure s l c).1 (ensure s l c).2 := by
            unfold derefHop
            rw [he1.value_pres _ hqlt]
          refine ⟨b, ?_, ?_, ?_, ?_⟩
          · simp only [getCellA, hlook1, hderef]
            exact ihb1
          · have ihb2' := ihb2
            simp only [List.cons_append, List.append_eq] at ihb2'
            simp only [List.cons_append, List.append_eq, hopAddrs, hlook1, hderef]
            rw [ihb2']
          · intro hb
            have hb1 : b < (ensure s l c).1.next := lt_of_lt_of_le hb hqe.next_le
            have h3 := ihb3 hb1
            cases hc : lookupLoc s l c with
            | some a =>
                have hens : ensure s l c = (s, a) := by simp [ensure, hc]
                rw [hens] at h3
                simp only [getCellA, hc]
                exact h3
            | none =>
                have hens : ensure s l c = allocAt s l c := by simp [ensure, hc]
                rw [hens, allocAt_snd, derefHop_allocAt_fresh] at h3
                have hnone : getCellA (allocAt s l c).1 (.childLoc s.next) (c2 :: cs2) = none :=
                  getCellA_cons_none _ (heapChildren_allocAt_fresh s l c c2)
                rw [hnone] at h3
                exact Option.noConfusion h3
          · intro hb
            by_cases hbq : (ensure s l c).1.next ≤ b
            · exact ihb4 hbq
            · push_neg at hbq
              cases hc : lookupLoc s l c with
              | some a =>
                  have hens1 : (ensure s l c).1 = s := by simp [ensure, hc]
                  rw [hens1] at hbq
                  omega
              | none =>
                  have hens : ensure s l c = allocAt s l c := by simp [ensure, hc]
                  rw [hens, next_allocAt] at hbq
                  have hbeq : b = s.next := by omega
                  subst hbeq
                  have hv1 : ((allocAt s l c).1.heap s.next).value = .voidV := by
                    rw [heapValue_allocAt]
                    simp
                  have hpres := he1.value_pres s.next
                  rw [hens] at hpres
                  rw [hpres (by rw [next_allocAt]; omega)]
                  exact hv1

/-- C5 (amended): writing V at P + [x] auto-vivifies every missing
ancestor with a Void value: afterwards `read_value(P)` succeeds, returning
Void when P was missing before the write and P's prior value otherwise
(the original claim's unconditional "returns Void" fails when P already
held a value, `autoviv_existing_counterexample`); the no-interference
proviso `writeUndisturbed` excludes CellRef cycles through the written
path.  Scenario B (`99 !a.b.c` on a fresh Store reads back Void at `a`
and `a.b` and 99 at `a.b.c`) is checked in the witness. -/
theorem write_child_autoviv (s : St) (p : List String) (x : String) (v : Thing)
    (hwf : WFSt s) (hp : p ≠ []) (hu : writeUndisturbed s (p ++ [x]) v = true) :
    ∃ s2 b, writeValue s (p ++ [x]) v = some s2 ∧
      getCellA s2 .rootLoc p = some b ∧
      readValue s2 p = some ((s2.heap b).value) ∧
      (getCellA s .rootLoc p = none → (s2.heap b).value = .voidV) ∧
      (∀ b0, getCellA s .rootLoc p = some b0 →
          b = b0 ∧ (s2.heap b).value = (s.heap b0).value) := by
  unfold writeUndisturbed at hu
  cases hg : getOrCreateA s .rootLoc (p ++ [x]) with
  | none => rw [hg] at hu; exact Bool.noConfusion hu
  | some q =>
      obtain ⟨s1, t⟩ := q
      rw [hg] at hu
      have hnotin : writeTargetAddr s1 t v ∉ hopAddrs s1 .rootLoc (p ++ [x]) :=
        of_decide_eq_true hu
      obtain ⟨hw1, he1, ht1⟩ := getOrCreateA_extends (p ++ [x]) s .rootLoc s1 t hwf trivial hg
      obtain ⟨b, hb1, hb2, hb3, hb4⟩ :=
        getOrCreateA_append x p s .rootLoc s1 t hwf trivial hp hg
      have hwv := writeValue_eq_setValue_target v hg
      have hbmem : b ∈ hopAddrs s1 .rootLoc (p ++ [x]) := by
        rw [hb2]
        simp
      have hwb : writeTargetAddr s1 t v ≠ b := fun he => hnotin (he ▸ hbmem)
      have hnotp : writeTargetAddr s1 t v ∉ hopAddrs s1 .rootLoc p := by
        intro hmem
        apply hnotin
        rw [hb2]
        simp [hmem]
      have hstable : getCellA (setValue s1 (writeTargetAddr s1 t v) v) .rootLoc p = some b :=
        getCellA_setValue_stable p s1 .rootLoc b (writeTargetAddr s1 t v) v hb1 hnotp
      have hbw : ¬ (b = writeTargetAddr s1 t v) := fun he => hwb he.symm
      have hvalb : ((setValue s1 (writeTargetAddr s1 t v) v).heap b).value
          = (s1.heap b).value := by
        rw [heapValue_setValue, if_neg hbw]
      refine ⟨setValue s1 (writeTargetAddr s1 t v) v, b, hwv, hstable, ?_, ?_, ?_⟩
      · simp [readValue, hstable]
      · intro hmiss
        have hge : s.next ≤ b := by
          by_contra hlt
          push_neg at hlt
          rw [hb3 hlt] at hmiss
          exact Option.noConfusion hmiss
        rw [hvalb]
        exact hb4 hge
      · intro b0 hb0
        have hlt0 : b0 < s.next := getCellA_lt p s .rootLoc b0 hwf trivial hb0
        have hb0' : getCellA s1 .rootLoc p = some b0 :=
          getCellA_extends p s s1 .rootLoc b0 hwf trivial he1 hb0
        rw [hb1] at hb0'
        have hbb : b = b0 := Option.some.inj hb0'
        subst hbb
        refine ⟨rfl, ?_⟩
        rw [hvalb]
        exact he1.value_pres b hlt0

/-- C2 (amended): path resolution follows CellRef aliasing at each
intermediate hop uniformly for read_value, read_ref, write_value and
write_ref with a non-Void value: whenever the reading resolver
(`_get_cell`) finds a terminal Cell, the creating resolver
(`_get_or_create_cell`) used by the other three operations returns exactly
the same Cell without mutating the Store, so all four share one resolution
rule.  The structural-deletion case `write_ref(P, Void)` is the exception:
`_delete_cell` navigates raw children and follows no CellRef, refuting the
original "all four operations" claim (`delete_alias_counterexample`). -/
theorem uniform_hop_resolution (p : List String) (s : St) (t : Nat)
    (h : getCellA s .rootLoc p = some t) :
    getOrCreateA s .rootLoc p = some (s, t) ∧
    readRef s p = some (s, .cellRef t) ∧
    ((s.heap t).value.isCellRef = false → ∀ v, v.isCellRef = false →
        writeValue s p v = some (setValue s t v)) ∧
    (∀ v, v ≠ .voidV → writeRef s p v = some (clearChildren (setValue s t v) t)) := by
  have hagree := getCellA_getOrCreateA p s .rootLoc t h
  refine ⟨hagree, ?_, ?_, ?_⟩
  · simp [readRef, hagree]
  · intro hnr v hvnr
    simp only [writeValue, hagree, Option.map_some']
    cases hval : (s.heap t).value <;> simp_all [Thing.isCellRef]
  · intro v hv
    cases v <;> simp_all [writeRef, hagree]

/-- C3 (amended): for every path P that exists in the Store and whose
resolution meets no CellRef at an intermediate hop (`plainPath`),
`write_ref(P, Void)` performs the structural deletion and a subsequent
`read_value(P)` fails with an Undefined-path error (`none`).  Without the
alias-free proviso the claim fails, because `_delete_cell` does not follow
CellRef aliases while `read_value` does (`deleted_read_alias_counterexample`). -/
theorem write_ref_void_plain_deletes (s : St) (p : List String)
    (hpl : plainPath s .rootLoc p = true) :
    writeRef s p .voidV = some (deleteCellA s .rootLoc p) ∧
    readValue (deleteCellA s .rootLoc p) p = none := by
  refine ⟨rfl, ?_⟩
  simp [readValue, delete_plain_getCellA_none p s .rootLoc hpl]

/-- C10 (confirmed): for every non-empty path P whose parent chain does
not fully exist (the raw navigation of `_delete_cell` fails before the
final component), `write_ref(P, Void)` raises no error and returns the
Store completely unchanged — in particular it auto-vivifies nothing. -/
theorem write_ref_void_missing_parent_noop (s : St) (p : List String) (_hp : p ≠ [])
    (hmiss : rawNav s .rootLoc p.dropLast = none) :
    writeRef s p .voidV = some s := by
  have hdel := deleteCellA_missing_parent p s .rootLoc hmiss
  simp [writeRef, hdel]


theorem heapChildren_setValue (s : St) (a : Nat) (v : Thing) (n : Nat) (k : String) :
    ((setValue s a v).heap n).children k = (s.heap n).children k := by
  simp only [setValue]
  split <;> simp_all

theorem wfSt_setValue (s : St) (a : Nat) (v : Thing) (hwf : WFSt s)
    (hv : v.isCellRef = false) : WFSt (setValue s a v) := by
  constructor
  · intro k2 a2 h2
    exact hwf.rootOk k2 a2 h2
  · intro n k2 a2 hn h2
    rw [heapChildren_setValue] at h2
    exact hwf.childOk n k2 a2 hn h2
  · intro n b hn hv2
    rw [heapValue_setValue] at hv2
    split at hv2
    · subst hv2
      simp [Thing.isCellRef] at hv
    · exact hwf.valueOk n b hn hv2

theorem wfSt_addRoot (s : St) (k : String) (v : Thing) (hwf : WFSt s)
    (hv : v.isCellRef = false) : WFSt (addRoot s k v) := by
  unfold addRoot
  exact wfSt_setValue _ _ _ (wfSt_allocAt s .rootLoc k hwf) hv

theorem wf_initSt : WFSt initSt := by
  unfold initSt
  repeat
    first
    | exact wfSt_empty
    | refine wfSt_addRoot _ _ _ ?_ rfl

/-! ## Claim theorems for the execution core -/

/-- C6 (confirmed): when the top of the AL is neither a Block nor a
BuiltinBlock, the chain builtin is a no-op: it terminates without error
and returns the VM state — the AL included — exactly as it was, with the
non-executable value back on top. -/
theorem chain_nonexecutable_noop (f : Nat) (m : VMState) (t : Thing) (rest : List Thing)
    (hal : m.al = t :: rest) (hne : t.isExec = false) :
    execBuiltinFn (f + 1) m .chainB = (m, none) := by
  cases m with
  | mk store regRoot al currentBlock =>
      simp only [VMState.mk.injEq] at hal ⊢
      subst hal
      cases t <;> simp [Thing.isExec] at hne <;>
        simp [execBuiltinFn, chainLoop]

/-- C7 (confirmed): an Exec operation runs the target's closure, pops one
value from the AL, and proceeds (executing it) only if that value is a
Block or BuiltinBlock; popping any other value raises a failure — the
underflow class for Void/Nil, Not-executable for everything else — never
a silent no-op. -/
theorem exec_pops_and_requires_executable (f : Nat) (m m1 : VMState) (target : Node)
    (t : Thing) (rest : List Thing)
    (hrun : execNode f m target = (m1, none)) (hal : m1.al = t :: rest) :
    execNode (f + 1) m (.execN target) =
      match t with
      | .blk body => execBlockFn f { m1 with al := rest } body
      | .builtin b => execBuiltinFn f { m1 with al := rest } b
      | .voidV => ({ m1 with al := rest }, some .alUnderflow)
      | .nilV => ({ m1 with al := rest }, some .alUnderflow)
      | _ => ({ m1 with al := rest }, some .notExecutable) := by
  simp only [execNode, hrun, hal]
  cases t <;> rfl

/-- C8 (confirmed): the block builtin fails when no Block is executing
(`current_block` is `none`, a top-level call) and otherwise pushes the
currently executing Block onto the AL, leaving every other part of the VM
state unchanged. -/
theorem block_builtin_pushes_current (f : Nat) (m : VMState) :
    execBuiltinFn (f + 1) m .blockB =
      match m.currentBlock with
      | none => (m, some .topLevelBlock)
      | some body => ({ m with al := .blk body :: m.al }, none) := by
  cases h : m.currentBlock <;> simp [execBuiltinFn, h]

/-- C9 (confirmed): `Block.execute` always restores the caller's Register
and current-block pointer: whatever state and outcome (success or any
propagated error) the body produces, the result is the body's final state
with `regRoot` and `currentBlock` reset to their saved pre-call values,
and the body's error is passed through unchanged. -/
theorem block_execute_restores_register (f : Nat) (m : VMState) (body : List Node) :
    ∃ m2 e,
      execBody f { m with regRoot := none, currentBlock := some body } body = (m2, e) ∧
      execBlockFn (f + 1) m body =
        ({ m2 with regRoot := m.regRoot, currentBlock := m.currentBlock }, e) ∧
      (execBlockFn (f + 1) m body).1.regRoot = m.regRoot ∧
      (execBlockFn (f + 1) m body).1.currentBlock = m.currentBlock := by
  rcases hb : execBody f { m with regRoot := none, currentBlock := some body } body with ⟨m2, e⟩
  refine ⟨m2, e, rfl, ?_, ?_, ?_⟩ <;> simp [execBlockFn, hb]

/-- C4 (amended): with at least three values on the AL, choose pops
[false_value, true_value, condition] (in that order from the top), pushes
exactly one of the two candidates without executing it, and pushes
false_value iff the condition is Nil, Void or False (`isFalsy`); every
other value, 0 and "" included, selects true_value.  In Scenario E's AL
(`1 2 3 Void 100 200 300`), the popped condition is therefore 100 — not
Void — 200 is pushed, and Void remains on the AL
(`choose_scenarioE_counterexample` refutes the original reading). -/
theorem choose_selects_without_executing (f : Nat) (m : VMState)
    (cond tv fv : Thing) (rest : List Thing)
    (hal : m.al = fv :: tv :: cond :: rest) :
    execBuiltinFn (f + 1) m .chooseB =
      ({ m with al := (if isFalsy cond then fv else tv) :: rest }, none) := by
  simp [execBuiltinFn, hal]

/-! ## Counterexamples refuting the claims as originally stated -/

/-- C1 counterexample: in `cycleBase` the terminal of `a.b.c.b` (the `a.b`
Cell) holds 5 — not a CellRef, so the claim's round-trip case applies and
predicts the read returns the written value — yet after
`write_value(["a","b","c","b"], cycleRef)` succeeds, `read_value` on the
same path fails with Undefined-path, because the write turned the `a.b`
Cell into a CellRef and re-routed the path's own resolution. -/
theorem write_value_cycle_counterexample :
    ((getOrCreateA cycleBase .rootLoc ["a", "b", "c", "b"]).map fun q => (q.1.heap q.2).value)
        = some (.int 5) ∧
    (writeValue cycleBase ["a", "b", "c", "b"] cycleRef).isSome = true ∧
    readValue cycleAfter ["a", "b", "c", "b"] = none := by
  refine ⟨by decide, by decide, by decide⟩

/-- C2 counterexample: in `aliasBase`, `ref` holds a CellRef to `data`, and
`read_value(["ref","x"])` follows it (returning 42); but
`write_ref(["ref","x"], Void)` does not — the deletion is a silent no-op
(both reads still return 42), whereas the spec's uniform alias-following
rule (`deleteCellAliasedSpec`) would have deleted `data.x` and made both
reads fail. -/
theorem delete_alias_counterexample :
    readValue aliasBase ["ref", "x"] = some (.int 42) ∧
    readValue aliasDeleted ["ref", "x"] = some (.int 42) ∧
    readValue aliasDeleted ["data", "x"] = some (.int 42) ∧
    readValue (deleteCellAliasedSpec aliasBase .rootLoc ["ref", "x"]) ["ref", "x"] = none ∧
    readValue (deleteCellAliasedSpec aliasBase .rootLoc ["ref", "x"]) ["data", "x"] = none := by
  refine ⟨by decide, by decide, by decide, by decide, by decide⟩

/-- C3 counterexample: the path `ref.x` exists in `aliasBase`
(`read_value` returns 42 through the alias), `write_ref(["ref","x"],
Void)` returns without error, yet the subsequent `read_value(["ref","x"])`
still returns 42 instead of failing with Undefined-path: deletion through
a CellRef alias removes nothing. -/
theorem deleted_read_alias_counterexample :
    readValue aliasBase ["ref", "x"] = some (.int 42) ∧
    (writeRef aliasBase ["ref", "x"] .voidV).isSome = true ∧
    readValue aliasDeleted ["ref", "x"] = some (.int 42) := by
  refine ⟨by decide, by decide, by decide⟩

/-- C4 counterexample: running Scenario E's program `1 2 3 Void 100 200
300 >choose` end to end leaves the AL as [1, 2, 3, Void, 200] (top at the
head here), not the [1, 2, 3, 200] the claim asserts: choose pops only
three values, so its condition is 100 (the third from the top of the
pre-choose AL), not Void, and Void stays on the stack. -/
theorem choose_scenarioE_counterexample :
    (execBody 20 initVM scenEProg).2 = none ∧
    (execBody 20 initVM scenEProg).1.al
        = [.int 200, .voidV, .int 3, .int 2, .int 1] ∧
    ¬ ((execBody 20 initVM scenEProg).1.al = [.int 200, .int 3, .int 2, .int 1]) ∧
    chooseScenVM.al.get? 2 = some (.int 100) ∧
    ¬ (chooseScenVM.al.get? 2 = some .voidV) := by
  refine ⟨by decide, by decide, by decide, by decide, by decide⟩

/-- C5 counterexample: after `7 !a` then `99 !a.b`, `read_value(["a"])`
returns 7, not the Void the claim asserts: auto-vivification writes Void
only into ancestors that were missing. -/
theorem autoviv_existing_counterexample :
    readValue shadowAB ["a"] = some (.int 7) ∧
    ¬ (readValue shadowAB ["a"] = some .voidV) := by
  refine ⟨by decide, by decide⟩

/-! ## Witnesses: the claim theorems applied at concrete inputs -/

/-- C1 witness: the round trip at `write_value(["a","b"], 5)` on a
fresh Store, hypotheses discharged by computation. -/
theorem write_value_round_trip_w :
    writeUndisturbed initSt ["a", "b"] (.int 5) = true ∧
    (∃ s1 t s2, getOrCreateA initSt .rootLoc ["a", "b"] = some (s1, t) ∧
      writeValue initSt ["a", "b"] (.int 5) = some s2 ∧
      (((s1.heap t).value.isCellRef = false ∨ (Thing.int 5).isCellRef = true) →
          readValue s2 ["a", "b"] = some (.int 5)) ∧
      (∀ a, (s1.heap t).value = .cellRef a → (Thing.int 5).isCellRef = false →
          (s2.heap a).value = .int 5 ∧
          readValue s2 ["a", "b"] = some (if a = t then .int 5 else .cellRef a))) :=
  ⟨by decide,
   write_value_round_trip initSt ["a", "b"] (.int 5) wf_initSt (by decide) (by decide)⟩

/-- C2 witness: in `aliasBase` the path `ref.x` resolves (through the
alias) to the Cell at address 19, and the creating resolver agrees without
mutating. -/
theorem uniform_hop_resolution_w :
    getCellA aliasBase .rootLoc ["ref", "x"] = some 19 ∧
    (getOrCreateA aliasBase .rootLoc ["ref", "x"] = some (aliasBase, 19) ∧
     readRef aliasBase ["ref", "x"] = some (aliasBase, .cellRef 19) ∧
     ((aliasBase.heap 19).value.isCellRef = false → ∀ v, v.isCellRef = false →
         writeValue aliasBase ["ref", "x"] v = some (setValue aliasBase 19 v)) ∧
     (∀ v, v ≠ .voidV → writeRef aliasBase ["ref", "x"] v
         = some (clearChildren (setValue aliasBase 19 v) 19))) :=
  ⟨by decide, uniform_hop_resolution ["ref", "x"] aliasBase 19 (by decide)⟩

/-- C3 witness: deleting the alias-free existing path `temp` makes the
subsequent read fail with Undefined-path. -/
theorem write_ref_void_plain_deletes_w :
    plainPath plainTemp .rootLoc ["temp"] = true ∧
    (writeRef plainTemp ["temp"] .voidV = some (deleteCellA plainTemp .rootLoc ["temp"]) ∧
     readValue (deleteCellA plainTemp .rootLoc ["temp"]) ["temp"] = none) :=
  ⟨by decide, write_ref_void_plain_deletes plainTemp ["temp"] (by decide)⟩

/-- C4 witness: choose applied to Scenario E's AL — the condition popped is
100 (truthy), so 200 is pushed and Void remains on the AL. -/
theorem choose_selects_w :
    chooseScenVM.al = [.int 300, .int 200, .int 100, .voidV, .int 3, .int 2, .int 1] ∧
    execBuiltinFn 1 chooseScenVM .chooseB
      = ({ chooseScenVM with al := [.int 200, .voidV, .int 3, .int 2, .int 1] }, none) :=
  ⟨rfl, choose_selects_without_executing 0 chooseScenVM (.int 100) (.int 200) (.int 300)
    [.voidV, .int 3, .int 2, .int 1] rfl⟩

/-- C5 witness: Scenario B — `99 !a.b.c` on a fresh Store; the theorem
applied at P = ["a","b"], x = "c", and the three Scenario B reads checked
by computation. -/
theorem write_child_autoviv_w :
    writeUndisturbed initSt (["a", "b"] ++ ["c"]) (.int 99) = true ∧
    (∃ s2 b, writeValue initSt (["a", "b"] ++ ["c"]) (.int 99) = some s2 ∧
      getCellA s2 .rootLoc ["a", "b"] = some b ∧
      readValue s2 ["a", "b"] = some ((s2.heap b).value) ∧
      (getCellA initSt .rootLoc ["a", "b"] = none → (s2.heap b).value = .voidV) ∧
      (∀ b0, getCellA initSt .rootLoc ["a", "b"] = some b0 →
          b = b0 ∧ (s2.heap b).value = (initSt.heap b0).value)) ∧
    readValue scenB ["a"] = some .voidV ∧
    readValue scenB ["a", "b"] = some .voidV ∧
    readValue scenB ["a", "b", "c"] = some (.int 99) :=
  ⟨by decide,
   write_child_autoviv initSt ["a", "b"] "c" (.int 99) wf_initSt (by decide) (by decide),
   by decide, by decide, by decide⟩

/-- C6 witness: chain with the non-executable 7 on top of the AL leaves
the state untouched. -/
theorem chain_nonexecutable_noop_w :
    (⟨initSt, none, [Thing.int 7], none⟩ : VMState).al = [Thing.int 7] ∧
    (Thing.int 7).isExec = false ∧
    execBuiltinFn 5 ⟨initSt, none, [Thing.int 7], none⟩ .chainB
      = (⟨initSt, none, [Thing.int 7], none⟩, none) :=
  ⟨rfl, by decide,
   chain_nonexecutable_noop 4 ⟨initSt, none, [Thing.int 7], none⟩ (.int 7) [] rfl (by decide)⟩

/-- C7 witness: `>5` — executing an Exec node whose target pushes the
integer 5 pops the 5 and fails with the Not-executable class. -/
theorem exec_pops_and_requires_executable_w :
    execNode 3 initVM (.intN 5) = (⟨initSt, none, [.int 5], none⟩, none) ∧
    execNode 4 initVM (.execN (.intN 5)) = (⟨initSt, none, [], none⟩, some .notExecutable) :=
  ⟨rfl, exec_pops_and_requires_executable 3 initVM ⟨initSt, none, [.int 5], none⟩
    (.intN 5) (.int 5) [] rfl rfl⟩

/-- C10 witness: deleting `nope.x` on a fresh Store, where `nope` does not
exist, returns the Store unchanged without error. -/
theorem write_ref_void_missing_parent_noop_w :
    (["nope", "x"] : List String) ≠ [] ∧
    rawNav initSt .rootLoc (["nope", "x"] : List String).dropLast = none ∧
    writeRef initSt ["nope", "x"] .voidV = some initSt :=
  ⟨by decide, by decide,
   write_ref_void_missing_parent_noop initSt ["nope", "x"] (by decide) (by decide)⟩

end Soma
